import Mathlib

/-!
# Verification of the natck connection orchestrator

A shallow embedding, in Lean 4, of the core of `natck` (a utility that
measures how many concurrent outbound connections a NAT middlebox will
sustain).  The embedding follows the current generation of the sources:

* `main.go` — the orchestrator `MeasureMaxConnections`, the `lookupQueue`,
  `connection` state objects with map-based relative-URL sets,
  `canonicalHost`, `isDialError`, `makeConnection`, `getNextConnection`;
* `http_scrap.go` / the scrap unit with `parseHttp429Headers` — the
  crawl-delay computation performed by `scrapConnection`;
* `domain_lookup.go` — `lookupAddr`.

Machine integers are modelled as `Nat`/`Int`; Go `time.Time`/`time.Duration`
values are milliseconds.  Go maps `map[relativeUrl]bool` are modelled as
duplicate-free lists in insertion order.  External effects (the system DNS
resolver, HTTP responses, `time.Now`) are passed in as explicit inputs, so
every definition is executable.  Go code that may panic (such as
`lookupQueue.pop` on an empty queue) is modelled with `Option`, `none`
standing for the fault.
-/

namespace Natck

/-- A `netip.Addr`: either an IPv4 or an IPv6 address.  Only the address
family and an abstract numeric value are relevant to the development;
equality is by value, as for `netip.Addr`. -/
inductive ipAddr where
  | v4 (val : Nat)
  | v6 (val : Nat)
deriving DecidableEq, Repr

/-- `netip.AddrPort`: an (IP address, TCP port) pair, equality by value. -/
structure addrPort where
  addr : ipAddr
  port : Nat
deriving DecidableEq, Repr

/-- A `url.URL`, restricted to the fields the embedded functions read.
`host` models `u.Hostname()` (no brackets, no port) and `port` models
`u.Port()` (empty string when the URL has no explicit port). -/
structure Url where
  scheme : String
  host : String
  port : String
  path : String
  rawQuery : String
deriving DecidableEq, Repr

/-- A relative URL: a (path, query) pair, the fragment already discarded
(struct `relativeUrl` in main.go). -/
structure relativeUrl where
  path : String
  query : String
deriving DecidableEq, Repr

/-- A Go error value, as far as `isDialError` can observe it:
`*net.OpError` values carry their `Op` string, anything else is opaque.
`fmt.Errorf("...: %w", err)` wrapping is transparent to `errors.As`, so it
needs no constructor of its own. -/
inductive goErr where
  | opError (op : String)
  | basicError
deriving DecidableEq, Repr

/-- struct `host` of http_scrap.go: the pinned endpoint and the canonical
`host:port` key of a connection. -/
structure Host where
  ip : addrPort
  hostPort : String
deriving DecidableEq, Repr

/-- struct `connection` of main.go (current generation): map-based
uncrawled/crawling/crawled sets, modelled as insertion-ordered
duplicate-free lists. -/
structure Conn where
  id : Nat
  host : Host
  url : Url
  uncrawledUrls : List relativeUrl
  crawlingUrls : List relativeUrl
  crawledUrls : List relativeUrl
  lastRequest : Nat
  lastReply : Nat
deriving DecidableEq, Repr

/-- struct `roundtrip` of http_scrap.go, as seen by the orchestrator when a
reply arrives: the fetch goroutine fills in `err`, `requestTs`, `replyTs`,
`scrapedUrls` and `crawlDelay`. -/
structure Reply where
  connId : Nat
  url : Url
  err : Option goErr
  requestTs : Nat
  replyTs : Nat
  scrapedUrls : List Url
  crawlDelay : Int
deriving DecidableEq, Repr

/-- struct `resolvedUrl` of domain_lookup.go. -/
structure resolvedUrl where
  url : Url
  addresses : List addrPort
deriving DecidableEq, Repr

/-! ## Small list helpers (Go map / slice operations) -/

/-- Removal of the first occurrence of an element (Go `delete` on a map
modelled as a duplicate-free list, and removal from `inflight` ghost
lists). -/
def removeFirst {α : Type} [DecidableEq α] : List α → α → List α
  | [], _ => []
  | x :: xs, a => if x = a then xs else x :: removeFirst xs a

/-- Go `m[k] = true` on a map modelled as a duplicate-free list: append the
key if absent. -/
def mapInsert {α : Type} [DecidableEq α] (l : List α) (a : α) : List α :=
  if a ∈ l then l else l ++ [a]

/-! ## URL helpers (main.go) -/

/-- `urlPort`: the explicit port of the URL, or the scheme default
(the Go `schemeToPort` map lookup yields `""` for unknown schemes). -/
def urlPort (u : Url) : String :=
  if u.port ≠ "" then u.port
  else if u.scheme = "http" then "80"
  else if u.scheme = "https" then "443"
  else ""

/-- Whether a string contains a given character (`strings.Contains`,
written over the character list so that it evaluates in the kernel). -/
def containsChar (s : String) (c : Char) : Bool :=
  s.toList.any (fun a => a = c)

/-- `net.JoinHostPort`: brackets an IPv6 literal host. -/
def joinHostPort (host port : String) : String :=
  if containsChar host ':' then "[" ++ host ++ "]:" ++ port
  else host ++ ":" ++ port

/-- `canonicalHost`: the canonical `host:port` key of a URL. -/
def canonicalHost (u : Url) : String :=
  joinHostPort u.host (urlPort u)

/-- `urlToRelativeUrl`: project a URL onto its (path, query) pair.
(The Go code prefers `RawPath` when non-empty; the model keeps a single
unescaped `path` field.) -/
def urlToRelativeUrl (u : Url) : relativeUrl :=
  { path := u.path, query := u.rawQuery }

/-- The merge step of `net/url.resolvePath`: everything of `base` up to and
including its last `/`, then `ref`.  With no `/` in `base` this is just
`ref`, matching `base[:i+1]` for `i = -1`. -/
def mergeSlash (base ref : String) : String :=
  String.mk ((base.toList.reverse.dropWhile (fun c => c ≠ '/')).reverse) ++ ref

/-- Whether a path string starts with `/`. -/
def headIsSlash (s : String) : Bool :=
  match s.toList with
  | '/' :: _ => true
  | _ => false

/-- `net/url.resolvePath` for the inputs arising here: dot-segment removal
is omitted (no input in this development contains `.` or `..` segments),
but the guarantee that a non-empty result starts with `/` is kept. -/
def resolvePath (base ref : String) : String :=
  let full :=
    if ref = "" then base
    else if headIsSlash ref then ref
    else mergeSlash base ref
  if full = "" then ""
  else if headIsSlash full then full
  else "/" ++ full

/-- `resolveRelativeUrl` (main.go): format the relative URL as `path?query`,
parse it, and resolve it against the base with `URL.ResolveReference`.
For a host-less reference Go keeps the base's scheme and host, resolves the
paths, and takes the reference's query unless the reference is empty. -/
def resolveRelativeUrl (b : Url) (r : relativeUrl) : Url :=
  { scheme := b.scheme
    host := b.host
    port := b.port
    path := resolvePath b.path r.path
    rawQuery := if r.path = "" ∧ r.query = "" then b.rawQuery else r.query }

/-- `isDialError`: `errors.As` the error into a `*net.OpError` and test
`Op == "dial"`. -/
def isDialError : Option goErr → Bool
  | some (.opError op) => op = "dial"
  | _ => false

/-! ## The lookup queue (main.go `lookupQueue`) -/

/-- `lookupQueue`: a queue of URL batches; lookups rotate between batches. -/
structure lookupQueue where
  urls : List (List Url)
deriving DecidableEq, Repr

/-- `lookupQueue.peek`: the first URL of the first batch; `nil` when the
queue is empty.  (Go would panic on an empty first batch; batches are never
empty by construction, and the model returns `none` there too.) -/
def lookupQueue.peek (q : lookupQueue) : Option Url :=
  match q.urls with
  | [] => none
  | [] :: _ => none
  | (u :: _) :: _ => some u

/-- `lookupQueue.put`: append the given URLs as one new batch. -/
def lookupQueue.put (q : lookupQueue) (batch : List Url) : lookupQueue :=
  ⟨q.urls ++ [batch]⟩

/-- `lookupQueue.pop`: return the first URL of the first batch; a batch of
one is dropped, a longer batch has its remainder rotated to the tail.
On an empty queue the Go code indexes `q.urls[0][0]` and panics: the fault
is modelled as `none`. -/
def lookupQueue.pop (q : lookupQueue) : Option (Url × lookupQueue) :=
  match q.urls with
  | [] => none
  | [] :: _ => none
  | (u :: rest) :: bs =>
    if rest.length = 0 then some (u, ⟨bs⟩)
    else some (u, ⟨bs ++ [rest]⟩)

/-! ## DNS resolution (domain_lookup.go) -/

/-- Decimal digits to a number; `none` if empty or any non-digit occurs. -/
def digitsToNat? : List Char → Option Nat
  | [] => none
  | cs =>
    if cs.all (fun c => c.isDigit) then
      some (cs.foldl (fun n c => n * 10 + (c.toNat - 48)) 0)
    else none

/-- `strconv.ParseUint(s, 10, 16)`: a non-empty all-digit string whose
value fits in 16 bits.  (Go also accepts `+`; ports never carry one.) -/
def parsePort (s : String) : Option Nat :=
  match digitsToNat? s.toList with
  | some n => if n < 65536 then some n else none
  | none => none

/-- `lookupAddr` (domain_lookup.go): resolve the URL's port, ask the system
resolver (`net.LookupIP`, modelled by `resolveIP`; `none` models a lookup
error) for the host's addresses, and pair every returned address with the
port, in resolver order.  Failures yield an empty address list, not an
error. -/
def lookupAddr (resolveIP : String → Option (List ipAddr)) (h : Url) : resolvedUrl :=
  match parsePort (urlPort h) with
  | none => { url := h, addresses := [] }
  | some p =>
    match resolveIP h.host with
    | none => { url := h, addresses := [] }
    | some addrs => { url := h, addresses := addrs.map (fun a => ⟨a, p⟩) }

/-! ## Crawl-delay computation (scrap unit: `parseHttp429Headers`,
`scrapConnection`) -/

/-- `strconv.Atoi`: optional sign followed by at least one digit. -/
def atoi? (s : String) : Option Int :=
  match s.toList with
  | '+' :: cs => (digitsToNat? cs).map Int.ofNat
  | '-' :: cs => (digitsToNat? cs).map (fun n => -(Int.ofNat n))
  | cs => (digitsToNat? cs).map Int.ofNat

/-- `parseHttp429Headers`: read the last `Retry-After` header value; a
plain integer is delta-seconds (converted to milliseconds); otherwise the
value is handed to `time.Parse` with the hard-coded layout and, on success,
`time.Until` of the parsed date is returned — `dateParse` models that
composite (it yields the remaining duration in milliseconds, possibly
negative).  `none` models the `(0, false)` return. -/
def parseHttp429Headers (retryFields : List String)
    (dateParse : String → Option Int) : Option Int :=
  match retryFields.getLast? with
  | none => none
  | some retryS =>
    match atoi? retryS with
    | some retry => some (retry * 1000)
    | none => dateParse retryS

/-- The `crawlDelay` field of the `roundtrip` after `scrapConnection` ran,
as a function of the response: on HTTP 429 the delay is raised to the
parsed `Retry-After` when present (`max retry current`), otherwise extended
by one second; afterwards, if the response is a robots.txt with a parsed
`Crawl-delay`, the delay is set to that value.  `cur` is the `crawlDelay`
the roundtrip carried into the fetch (zero as dispatched by the
orchestrator). -/
def scrapCrawlDelayUpdate (status : Nat) (retryAfter : List String)
    (dateParse : String → Option Int) (isRobots : Bool)
    (robotsDelay : Option Int) (cur : Int) : Int :=
  let afterStatus :=
    if status = 429 then
      match parseHttp429Headers retryAfter dateParse with
      | some retry => max retry cur
      | none => cur + 1000
    else cur
  if isRobots then
    match robotsDelay with
    | some cd => cd
    | none => afterStatus
  else afterStatus

/-! ## Connections (main.go) -/

/-- `makeConnection`: a fresh pending connection pinned to `addr`; its
initial uncrawled set holds exactly the seed's relative URL.
(`makeClient` builds the owned HTTP client, which has no observable state
here.) -/
def makeConnection (addr : addrPort) (target : Url) : Conn :=
  { id := 0
    host := { ip := addr, hostPort := canonicalHost target }
    url := target
    uncrawledUrls := [urlToRelativeUrl target]
    crawlingUrls := []
    crawledUrls := []
    lastRequest := 0
    lastReply := 0 }

/-- `indexUrlByHostPort`: first index whose canonical host equals the
needle's (Go `slices.IndexFunc`, `-1` becomes `none`). -/
def indexUrlByHostPort (urls : List Url) (needle : Url) : Option Nat :=
  urls.findIdx? (fun u => decide (canonicalHost u = canonicalHost needle))

/-- `indexConnectionById`. -/
def indexConnectionById (conns : List Conn) (needle : Nat) : Option Nat :=
  conns.findIdx? (fun c => decide (c.id = needle))

/-- `indexConnectionByAddr`: first connection pinned to exactly this
address+port. -/
def indexConnectionByAddr (conns : List Conn) (addr : addrPort) : Option Nat :=
  conns.findIdx? (fun c => decide (c.host.ip = addr))

/-- `indexConnectionByHostPort`. -/
def indexConnectionByHostPort (conns : List Conn) (u : Url) : Option Nat :=
  conns.findIdx? (fun c => decide (c.host.hostPort = canonicalHost u))

/-- `indexKeepAliveConnection`'s predicate: the last reply is older than
3.5 s and the last request older than 1 s.  `now - t` is truncated
subtraction, matching `time.Since` being non-positive when `t` is in the
future. -/
def keepAlivePred (now : Nat) (c : Conn) : Bool :=
  decide (3500 < now - c.lastReply) && decide (1000 < now - c.lastRequest)

/-- Which connection `getNextConnection` chose: the head of the pending
list, or the `i`-th active connection. -/
inductive ConnRef where
  | pendingHead
  | activeIdx (i : Nat)
deriving DecidableEq, Repr

/-- `getNextConnection` (main.go): (1) an active connection due for a
keep-alive refresh, else (2) the oldest pending connection, else (3) if
workers are free, among active connections with uncrawled URLs whose last
request is at least a second old, the one with the most recent `lastReply`
(`slices.MaxFunc` keeps the first of equal maxima). -/
def getNextConnectionRef (pending active : List Conn) (freeWorkers now : Nat) :
    Option ConnRef :=
  match active.findIdx? (keepAlivePred now) with
  | some i => some (.activeIdx i)
  | none =>
    if pending ≠ [] then some .pendingHead
    else if 0 < freeWorkers ∧ active ≠ [] then
      match (active.enum).filter
          (fun p => ¬ p.2.uncrawledUrls = [] ∧ ¬ (now - p.2.lastRequest < 1000)) with
      | [] => none
      | x :: xs =>
        some (.activeIdx
          (xs.foldl (fun best y =>
            if best.2.lastReply < y.2.lastReply then y else best) x).1)
    else none

/-- The crawl target chosen at dispatch: some uncrawled relative URL
resolved against the connection's seed URL, or the seed URL itself when the
uncrawled set is empty.  Go iterates the `uncrawledUrls` map in unspecified
order; `pick` selects which element the iteration yields. -/
def dispatchTarget (c : Conn) (pick : Nat) : Url :=
  match c.uncrawledUrls with
  | [] => c.url
  | x :: xs =>
    resolveRelativeUrl c.url
      ((x :: xs).get ⟨pick % (x :: xs).length, Nat.mod_lt _ (Nat.succ_pos xs.length)⟩)

/-- The mutation of the chosen connection in the dispatch arm: stamp
`lastRequest`, delete the target's relative URL from `uncrawledUrls`, and
insert it into `crawlingUrls`. -/
def dispatchUpdate (c : Conn) (target : Url) (now : Nat) : Conn :=
  let rUrl := urlToRelativeUrl target
  { c with
    lastRequest := now
    uncrawledUrls := removeFirst c.uncrawledUrls rUrl
    crawlingUrls := mapInsert c.crawlingUrls rUrl }

/-- Replace the `j`-th connection by `f` applied to it (mutation through a
`*connection` pointer into a slice). -/
def modifyConn (l : List Conn) (j : Nat) (f : Conn → Conn) : List Conn :=
  match l[j]? with
  | some c => l.set j (f c)
  | none => l

/-- The first loop over `reply.scrapedUrls` in the completion arm: a
scraped URL whose host key matches an active connection is pushed onto that
connection's uncrawled set unless it is already crawling or crawled there;
the rest are collected, in order, as `newUrls`. -/
def pushScraped : List Conn → List Url → List Conn × List Url
  | conns, [] => (conns, [])
  | conns, u :: us =>
    match indexConnectionByHostPort conns u with
    | some j =>
      let r := urlToRelativeUrl u
      let conns' := modifyConn conns j (fun c =>
        if r ∈ c.crawlingUrls ∨ r ∈ c.crawledUrls then c
        else { c with uncrawledUrls := mapInsert c.uncrawledUrls r })
      pushScraped conns' us
    | none =>
      ((pushScraped conns us).1, u :: (pushScraped conns us).2)

/-- The second loop over `newUrls`: deduplicate by host key within the
batch and against the pending connections, keeping order. -/
def filterToResolve (pending : List Conn) : List Url → List Url → List Url
  | acc, [] => acc
  | acc, u :: us =>
    if (indexUrlByHostPort acc u).isSome ∨ (indexConnectionByHostPort pending u).isSome then
      filterToResolve pending acc us
    else filterToResolve pending (acc ++ [u]) us

/-! ## The orchestrator (main.go `MeasureMaxConnections`) -/

/-- The worker cap (`workerLimit := 10000`). -/
def workerLimit : Nat := 10000

/-- The orchestrator's loop state.  `inflightLookups` and `inflightCrawls`
record the dispatched tasks whose replies have not yet been applied; each
holds one `semC` token, released right after its reply is delivered, so
`len(semC)` is the total length of the two lists. -/
structure OState where
  pendingResolutions : lookupQueue
  pendingConns : List Conn
  activeConns : List Conn
  inflightLookups : List Url
  inflightCrawls : List (Nat × Url)
  repeatedDailFails : Nat
  connectionIdCtr : Nat
deriving DecidableEq, Repr

/-- `len(semC)`: tokens held by in-flight lookup and crawl tasks. -/
def sem (s : OState) : Nat :=
  s.inflightLookups.length + s.inflightCrawls.length

/-- The lookup-dispatch arm: enabled when `peek` is non-nil and a semaphore
token is available; it pops the queue and starts a lookup goroutine. -/
def applyLookupDispatch (s : OState) : OState :=
  if sem s < workerLimit then
    match s.pendingResolutions.peek with
    | none => s
    | some _ =>
      match s.pendingResolutions.pop with
      | none => s
      | some (u, q') =>
        { s with pendingResolutions := q', inflightLookups := s.inflightLookups ++ [u] }
  else s

/-- The resolved-address arm: of the returned endpoints, those already
pinned by a pending or active connection are dropped; if any endpoint is
left, the first becomes a new pending connection's endpoint, stamped with
the next connection id; otherwise the result is discarded.  The lookup's
semaphore token is released. -/
def applyResolved (s : OState) (h : resolvedUrl) : OState :=
  if h.url ∈ s.inflightLookups then
    match h.addresses.filter (fun a =>
      (indexConnectionByAddr s.pendingConns a).isNone &&
      (indexConnectionByAddr s.activeConns a).isNone) with
    | [] => { s with inflightLookups := removeFirst s.inflightLookups h.url }
    | a :: _ =>
      { s with
        pendingConns := s.pendingConns ++
          [{ makeConnection a h.url with id := s.connectionIdCtr }]
        connectionIdCtr := s.connectionIdCtr + 1
        inflightLookups := removeFirst s.inflightLookups h.url }
  else s

/-- The crawl-dispatch arm: `getNextConnection` picks a connection, a
target is chosen from its uncrawled set (`pick` resolves the map iteration
order), the target moves from uncrawled to crawling, `lastRequest` is
stamped, a fetch goroutine takes a token, and a pending head moves to the
active list. -/
def applyCrawlDispatch (s : OState) (now pick : Nat) : OState :=
  if sem s < workerLimit then
    match getNextConnectionRef s.pendingConns s.activeConns (workerLimit - sem s) now with
    | none => s
    | some .pendingHead =>
      match s.pendingConns with
      | [] => s
      | c :: t =>
        { s with
          pendingConns := t
          activeConns := s.activeConns ++ [dispatchUpdate c (dispatchTarget c pick) now]
          inflightCrawls := s.inflightCrawls ++ [(c.id, dispatchTarget c pick)] }
    | some (.activeIdx i) =>
      match s.activeConns[i]? with
      | none => s
      | some c =>
        { s with
          activeConns := s.activeConns.set i (dispatchUpdate c (dispatchTarget c pick) now)
          inflightCrawls := s.inflightCrawls ++ [(c.id, dispatchTarget c pick)] }
  else s

/-- The completion arm's update of the located connection: move the
reply's relative URL from crawling to crawled and take the reply's
timestamps. -/
def replyConnUpdate (c : Conn) (rUrl : relativeUrl) (r : Reply) : Conn :=
  { c with
    crawlingUrls := removeFirst c.crawlingUrls rUrl
    crawledUrls := mapInsert c.crawledUrls rUrl
    lastRequest := r.requestTs
    lastReply := r.replyTs }

/-- The active-connection list after the located connection is updated
and, on error, removed. -/
def replyActive (s : OState) (r : Reply) (i : Nat) (c : Conn) : List Conn :=
  if r.err.isSome then
    (s.activeConns.set i (replyConnUpdate c (urlToRelativeUrl r.url) r)).eraseIdx i
  else s.activeConns.set i (replyConnUpdate c (urlToRelativeUrl r.url) r)

/-- The completion arm once the connection has been located at index `i`. -/
def applyReplyCore (s : OState) (r : Reply) (i : Nat) (c : Conn) : OState :=
  { s with
    activeConns := (pushScraped (replyActive s r i c) r.scrapedUrls).1
    repeatedDailFails := if isDialError r.err then s.repeatedDailFails + 1 else 0
    pendingResolutions :=
      if filterToResolve s.pendingConns []
          (pushScraped (replyActive s r i c) r.scrapedUrls).2 ≠ [] then
        s.pendingResolutions.put
          (filterToResolve s.pendingConns []
            (pushScraped (replyActive s r i c) r.scrapedUrls).2)
      else s.pendingResolutions
    inflightCrawls := removeFirst s.inflightCrawls (r.connId, r.url) }

/-- The fetch-completion arm: release the goroutine's token; locate the
connection by id among the active connections (a late reply for a removed
connection is dropped); move the reply's relative URL from crawling to
crawled and take the reply's timestamps; a dial error increments the
consecutive-dial-failure counter, any other located reply resets it; an
errored connection is removed from the active list; scraped URLs are pushed
onto matching active connections or batched for resolution.  The reply's
`crawlDelay` is never read. -/
def applyReply (s : OState) (r : Reply) : OState :=
  if (r.connId, r.url) ∈ s.inflightCrawls then
    match indexConnectionById s.activeConns r.connId with
    | none => { s with inflightCrawls := removeFirst s.inflightCrawls (r.connId, r.url) }
    | some i =>
      match s.activeConns[i]? with
      | none => { s with inflightCrawls := removeFirst s.inflightCrawls (r.connId, r.url) }
      | some c => applyReplyCore s r i c
  else s

/-- One iteration's outcome of the multi-way select: a 50 ms tick with no
work, a lookup dispatch, a resolved address, a crawl dispatch, or a fetch
completion.  The `resolvedUrl` and `Reply` payloads and the times are
environment inputs. -/
inductive Event where
  | tick
  | lookupDispatch
  | resolvedArrive (h : resolvedUrl)
  | crawlDispatch (now pick : Nat)
  | replyArrive (r : Reply)

/-- Apply one select-arm outcome to the loop state. -/
def applyEvent (s : OState) : Event → OState
  | .tick => s
  | .lookupDispatch => applyLookupDispatch s
  | .resolvedArrive h => applyResolved s h
  | .crawlDispatch now pick => applyCrawlDispatch s now pick
  | .replyArrive r => applyReply s r

/-- The end-of-iteration exit checks, in source order: five or more
consecutive dial failures break the loop (saturation); otherwise, with no
pending connections, an empty lookup queue and no `semC` token held, the
loop breaks unless some active connection still has uncrawled or crawling
URLs.  On either break `MeasureMaxConnections` returns the number of
active connections. -/
def exitResult (s : OState) : Option Nat :=
  if 5 ≤ s.repeatedDailFails then some s.activeConns.length
  else if s.pendingConns.length = 0 ∧ s.pendingResolutions.urls.length = 0 ∧ sem s = 0 then
    if s.activeConns.any (fun c =>
        decide (0 < c.uncrawledUrls.length + c.crawlingUrls.length)) then none
    else some s.activeConns.length
  else none

/-- The seed-deduplication loop: a URL is kept only if no previously kept
URL shares its canonical host key. -/
def dedupGo : List Url → List Url → List Url
  | acc, [] => acc
  | acc, u :: rest =>
    if (indexUrlByHostPort acc u).isSome then dedupGo acc rest
    else dedupGo (acc ++ [u]) rest

/-- `uniqueUrls` as computed at the top of `MeasureMaxConnections`. -/
def uniqueUrls (urls : List Url) : List Url :=
  dedupGo [] urls

/-- The loop state right before the first iteration: the deduplicated
seeds are `put` one by one into the lookup queue; no connections exist
yet. -/
def initState (urls : List Url) : OState :=
  { pendingResolutions := (uniqueUrls urls).foldl (fun q u => q.put [u]) ⟨[]⟩
    pendingConns := []
    activeConns := []
    inflightLookups := []
    inflightCrawls := []
    repeatedDailFails := 0
    connectionIdCtr := 0 }

/-- The loop states reachable from the initial state for a given seed
list, under any environment behaviour. -/
inductive Reachable (urls : List Url) : OState → Prop where
  | init : Reachable urls (initState urls)
  | step (s : OState) (e : Event) : Reachable urls s → Reachable urls (applyEvent s e)

/-! ## Shared concrete values used by witnesses and counterexamples -/

/-- A typical seed URL, `http://example.com/index.html`. -/
def wUrl : Url := ⟨"http", "example.com", "", "/index.html", ""⟩

/-- A second seed URL on a different host. -/
def wUrl2 : Url := ⟨"http", "other.example", "", "/index.html", ""⟩

/-! ## Helper lemmas -/

theorem findIdx?_none_forall {α : Type} (p : α → Bool) :
    ∀ l : List α, l.findIdx? p = none → ∀ x ∈ l, p x = false := by
  intro l
  induction l with
  | nil => intro _ x hx; cases hx
  | cons a l ih =>
    intro h x hx
    rw [List.findIdx?_cons] at h
    by_cases hpa : p a
    · simp [hpa] at h
    · rcases List.mem_cons.mp hx with rfl | hx'
      · simpa using hpa
      · exact ih (by simpa [hpa] using h) x hx'

theorem mem_of_getElem?_eq {α : Type} :
    ∀ (l : List α) (i : Nat) (a : α), l[i]? = some a → a ∈ l := by
  intro l
  induction l with
  | nil => intro i a h; simp at h
  | cons x l ih =>
    intro i a h
    match i with
    | 0 => simp at h; exact h ▸ List.mem_cons_self _ _
    | j + 1 =>
      simp only [List.getElem?_cons_succ] at h
      exact List.mem_cons_of_mem _ (ih j a h)

theorem findIdx?_some_getElem {α : Type} (p : α → Bool) :
    ∀ (l : List α) (i : Nat), l.findIdx? p = some i →
      ∃ x, l[i]? = some x ∧ p x = true := by
  intro l
  induction l with
  | nil => intro i h; simp [List.findIdx?_nil] at h
  | cons a l ih =>
    intro i h
    rw [List.findIdx?_cons] at h
    by_cases hpa : p a
    · rw [if_pos hpa] at h
      cases h
      exact ⟨a, by simp, hpa⟩
    · rw [if_neg hpa] at h
      rw [List.findIdx?_succ] at h
      rcases Option.map_eq_some'.mp h with ⟨j, hj, hji⟩
      rcases ih j hj with ⟨x, hx, hpx⟩
      subst hji
      exact ⟨x, by simpa using hx, hpx⟩

theorem mem_dedupGo_of_mem_acc :
    ∀ (l acc : List Url) (v : Url), v ∈ acc → v ∈ dedupGo acc l := by
  intro l
  induction l with
  | nil => intro acc v hv; simpa [dedupGo] using hv
  | cons u rest ih =>
    intro acc v hv
    by_cases h : (indexUrlByHostPort acc u).isSome <;>
      simp only [dedupGo, h, if_true, if_false]
    · exact ih acc v hv
    · exact ih (acc ++ [u]) v (List.mem_append_left _ hv)

theorem mem_of_mem_dedupGo :
    ∀ (l acc : List Url) (v : Url), v ∈ dedupGo acc l → v ∈ acc ∨ v ∈ l := by
  intro l
  induction l with
  | nil => intro acc v hv; exact Or.inl (by simpa [dedupGo] using hv)
  | cons u rest ih =>
    intro acc v hv
    by_cases h : (indexUrlByHostPort acc u).isSome <;>
      simp only [dedupGo, h, if_true, if_false] at hv
    · rcases ih acc v hv with h' | h'
      · exact Or.inl h'
      · exact Or.inr (List.mem_cons_of_mem _ h')
    · rcases ih (acc ++ [u]) v hv with h' | h'
      · rcases List.mem_append.mp h' with h'' | h''
        · exact Or.inl h''
        · have : v = u := by simpa using h''
          exact Or.inr (this ▸ List.mem_cons_self _ _)
      · exact Or.inr (List.mem_cons_of_mem _ h')

theorem dedupGo_keys_nodup :
    ∀ (l acc : List Url), (acc.map canonicalHost).Nodup →
      ((dedupGo acc l).map canonicalHost).Nodup := by
  intro l
  induction l with
  | nil => intro acc h; simpa [dedupGo] using h
  | cons u rest ih =>
    intro acc h
    by_cases hidx : (indexUrlByHostPort acc u).isSome <;>
      simp only [dedupGo, hidx, if_true, if_false]
    · exact ih acc h
    · refine ih (acc ++ [u]) ?_
      have hnone : indexUrlByHostPort acc u = none := by
        cases hcase : indexUrlByHostPort acc u with
        | none => rfl
        | some i => rw [hcase] at hidx; simp at hidx
      have hall := findIdx?_none_forall _ acc hnone
      have hnot : canonicalHost u ∉ acc.map canonicalHost := by
        intro hmem
        rcases List.mem_map.mp hmem with ⟨x, hx, hk⟩
        have := hall x hx
        simp [hk] at this
      simp only [List.map_append, List.map_cons, List.map_nil]
      rw [List.nodup_append]
      refine ⟨h, List.nodup_singleton _, ?_⟩
      intro a ha hb
      have ha' : a = canonicalHost u := by simpa using hb
      subst ha'
      exact hnot ha

theorem dedupGo_keeps_first :
    ∀ (l acc : List Url) (u : Url), u ∈ l →
      (∀ x ∈ acc, canonicalHost x ≠ canonicalHost u) →
      ∃ v, l.find? (fun w => decide (canonicalHost w = canonicalHost u)) = some v ∧
        v ∈ dedupGo acc l := by
  intro l
  induction l with
  | nil => intro acc u hu; cases hu
  | cons x rest ih =>
    intro acc u hu hacc
    by_cases hkey : canonicalHost x = canonicalHost u
    · refine ⟨x, List.find?_cons_of_pos _ (by simpa using hkey), ?_⟩
      have hnone : indexUrlByHostPort acc x = none := by
        cases hcase : indexUrlByHostPort acc x with
        | none => rfl
        | some i =>
          rcases findIdx?_some_getElem _ acc i hcase with ⟨y, hy, hpy⟩
          have hymem : y ∈ acc := mem_of_getElem?_eq acc i y hy
          have : canonicalHost y = canonicalHost x := by simpa using hpy
          exact absurd (this.trans hkey) (hacc y hymem)
      simp only [dedupGo, hnone, Option.isSome_none, Bool.false_eq_true, if_false]
      exact mem_dedupGo_of_mem_acc rest (acc ++ [x]) x (by simp)
    · have hu' : u ∈ rest := by
        rcases List.mem_cons.mp hu with rfl | h'
        · exact absurd rfl hkey
        · exact h'
      have hfind : (x :: rest).find? (fun w => decide (canonicalHost w = canonicalHost u)) =
          rest.find? (fun w => decide (canonicalHost w = canonicalHost u)) :=
        List.find?_cons_of_neg _ (by simpa using hkey)
      rw [hfind]
      by_cases hidx : (indexUrlByHostPort acc x).isSome <;>
        simp only [dedupGo, hidx, if_true, if_false]
      · exact ih acc u hu' hacc
      · refine ih (acc ++ [x]) u hu' ?_
        intro y hy
        rcases List.mem_append.mp hy with hy' | hy'
        · exact hacc y hy'
        · have : y = x := by simpa using hy'
          exact this ▸ hkey

theorem foldl_put_urls :
    ∀ (l : List Url) (q : lookupQueue),
      (l.foldl (fun q u => q.put [u]) q).urls = q.urls ++ l.map (fun u => [u]) := by
  intro l
  induction l with
  | nil => intro q; simp
  | cons u rest ih =>
    intro q
    simp only [List.foldl_cons, List.map_cons]
    rw [ih]
    simp [lookupQueue.put]

/-! ## Claim C7: lookup queue operations -/

/-- Claim C7: for every lookup queue state, `peek` returns the first URL of
the first batch (and `nil` when the queue is empty); `pop` returns that
same URL and, if the first batch contained more than one URL, moves the
batch's remainder to the tail of the queue, while a batch of one is
removed entirely; `put` appends the given URLs as one new batch at the
tail. -/
theorem lookupQueue_spec (q : lookupQueue) (u : Url) (b : List Url)
    (bs : List (List Url)) (batch : List Url) :
    lookupQueue.peek ⟨[]⟩ = none
    ∧ (q.urls = (u :: b) :: bs →
        q.peek = some u
        ∧ (b = [] → q.pop = some (u, ⟨bs⟩))
        ∧ (b ≠ [] → q.pop = some (u, ⟨bs ++ [b]⟩)))
    ∧ (q.put batch).urls = q.urls ++ [batch] := by
  obtain ⟨l⟩ := q
  refine ⟨rfl, ?_, rfl⟩
  intro h
  simp only at h
  subst h
  refine ⟨rfl, ?_, ?_⟩
  · intro hb; subst hb; rfl
  · intro hb
    simp only [lookupQueue.pop]
    rw [if_neg (by simpa [List.length_eq_zero] using hb)]

/-- Witness for C7 at a concrete two-batch queue. -/
theorem lookupQueue_spec_witness :
    (lookupQueue.mk [[wUrl], [wUrl2]]).peek = some wUrl
    ∧ (lookupQueue.mk [[wUrl], [wUrl2]]).pop = some (wUrl, ⟨[[wUrl2]]⟩)
    ∧ (lookupQueue.mk [[wUrl, wUrl2]]).pop = some (wUrl, ⟨[[wUrl2]]⟩) := by
  have h1 := (lookupQueue_spec ⟨[[wUrl], [wUrl2]]⟩ wUrl [] [[wUrl2]] []).2.1 rfl
  have h2 := (lookupQueue_spec ⟨[[wUrl, wUrl2]]⟩ wUrl [wUrl2] [] []).2.1 rfl
  exact ⟨h1.1, h1.2.1 rfl, by simpa using h2.2.2 (by simp)⟩

/-! ## Claim C10: `pop` is partial but every call is guarded by `peek` -/

/-- Claim C10: `lookupQueue.pop` is partial — on an empty queue it indexes
the first element of an empty slice and faults (modelled as `none`),
whereas `peek` on an empty queue returns `nil`; in `MeasureMaxConnections`
`pop` is called only in the select arm that is enabled when `peek`
returned non-nil, and under that precondition `pop` always succeeds and
returns the peeked URL, so the fault branch is unreachable. -/
theorem pop_partial_guarded (q : lookupQueue) (s : OState) :
    lookupQueue.pop ⟨[]⟩ = none
    ∧ lookupQueue.peek ⟨[]⟩ = none
    ∧ (q.peek.isSome → ∃ u q', q.pop = some (u, q') ∧ q.peek = some u)
    ∧ (s.pendingResolutions.peek = none → applyLookupDispatch s = s) := by
  refine ⟨rfl, rfl, ?_, ?_⟩
  · obtain ⟨l⟩ := q
    match l with
    | [] => intro h; simp [lookupQueue.peek] at h
    | [] :: bs => intro h; simp [lookupQueue.peek] at h
    | (u :: rest) :: bs =>
      intro _
      by_cases hr : rest.length = 0
      · exact ⟨u, ⟨bs⟩, by simp [lookupQueue.pop, hr], rfl⟩
      · exact ⟨u, ⟨bs ++ [rest]⟩, by simp [lookupQueue.pop, hr], rfl⟩
  · intro h
    unfold applyLookupDispatch
    rw [h]
    split <;> rfl

/-- Witness for C10: the guarded branch at a singleton queue, and the
no-op branch at the initial state of an empty seed list. -/
theorem pop_partial_guarded_witness :
    (∃ u q', (lookupQueue.mk [[wUrl]]).pop = some (u, q')
      ∧ (lookupQueue.mk [[wUrl]]).peek = some u)
    ∧ applyLookupDispatch (initState []) = initState [] := by
  refine ⟨(pop_partial_guarded ⟨[[wUrl]]⟩ (initState [])).2.2.1 rfl, ?_⟩
  exact (pop_partial_guarded ⟨[[wUrl]]⟩ (initState [])).2.2.2 rfl

/-! ## Claim C4: seed deduplication by host key -/

/-- Claim C4: seed URLs are deduplicated by host key — the literal
hostname plus the explicit port or the scheme default (80 for http, 443
for https) — before being enqueued for resolution: the kept list has
pairwise-distinct host keys, every seed's first-occurring representative
(under `find?` by equal host key) is kept, nothing else is added, and the
initial lookup queue holds exactly the deduplicated seeds as singleton
batches, so for any two seed URLs with the same (host, port) only the
first is enqueued. -/
theorem seed_dedup (urls : List Url) :
    ((uniqueUrls urls).map canonicalHost).Nodup
    ∧ (∀ u ∈ urls, ∃ v,
        urls.find? (fun w => decide (canonicalHost w = canonicalHost u)) = some v
        ∧ v ∈ uniqueUrls urls)
    ∧ (∀ v ∈ uniqueUrls urls, v ∈ urls)
    ∧ (initState urls).pendingResolutions.urls = (uniqueUrls urls).map (fun u => [u]) := by
  refine ⟨dedupGo_keys_nodup urls [] (by simp), ?_, ?_, ?_⟩
  · intro u hu
    exact dedupGo_keeps_first urls [] u hu (by intro x hx; cases hx)
  · intro v hv
    rcases mem_of_mem_dedupGo urls [] v hv with h | h
    · cases h
    · exact h
  · simpa using foldl_put_urls (uniqueUrls urls) ⟨[]⟩

/-- Witness for C4 at a concrete seed list with a duplicated host key:
both seeds with key `example.com:80` map to the first. -/
theorem seed_dedup_witness :
    (∃ v, [wUrl, wUrl2, ⟨"http", "example.com", "80", "/other.html", ""⟩].find?
        (fun w => decide (canonicalHost w =
          canonicalHost (⟨"http", "example.com", "80", "/other.html", ""⟩ : Url))) = some v
      ∧ v ∈ uniqueUrls [wUrl, wUrl2, ⟨"http", "example.com", "80", "/other.html", ""⟩])
    ∧ uniqueUrls [wUrl, wUrl2, ⟨"http", "example.com", "80", "/other.html", ""⟩]
        = [wUrl, wUrl2] := by
  refine ⟨(seed_dedup [wUrl, wUrl2, ⟨"http", "example.com", "80", "/other.html", ""⟩]).2.1
    ⟨"http", "example.com", "80", "/other.html", ""⟩ (by simp), by decide⟩

/-! ## Claim C5: the initial uncrawled set of a new connection -/

/-- Claim C5 (code divergence): `makeConnection` initialises the uncrawled
set to contain only the seed's relative URL; `/robots.txt` is absent, so
it is not the first crawl target on a new connection, contrary to the
specification. -/
theorem makeConnection_omits_robots :
    (makeConnection ⟨.v4 2130706433, 80⟩ wUrl).uncrawledUrls = [⟨"/index.html", ""⟩]
    ∧ (⟨"/robots.txt", ""⟩ : relativeUrl) ∉
        (makeConnection ⟨.v4 2130706433, 80⟩ wUrl).uncrawledUrls := by
  decide

/-! ## Claim C9: the resolver does not exclude IPv6 addresses -/

/-- Claim C9 (code divergence): `lookupAddr` pairs every address returned
by the system resolver with the URL's resolved port, in resolver order,
without filtering by address family — when the resolver returns an IPv6
address, it appears in the output endpoint list, contrary to the
specification's IPv4-only contract. -/
theorem lookupAddr_keeps_ipv6 :
    (lookupAddr (fun _ => some [.v6 1]) wUrl).addresses = [⟨.v6 1, 80⟩]
    ∧ (lookupAddr (fun _ => some [.v6 1]) wUrl).addresses.any
        (fun a => match a.addr with | .v6 _ => true | .v4 _ => false) = true := by
  decide

/-! ## Claim C6: crawl-delay is computed per fetch but dropped by the
orchestrator -/

/-- Claim C6 (code divergence): the fetch side behaves as claimed on the
roundtrip — on HTTP 429 the roundtrip's `crawlDelay` is raised to the
parsed `Retry-After` when present and extended by one second otherwise,
and a robots.txt `Crawl-delay` sets it — but the orchestrator's
completion handler never reads the reply's `crawlDelay` (the `connection`
struct has no such field), so the resulting loop state is identical for
any `crawlDelay` value and subsequent dispatches cannot honour it. -/
theorem crawlDelay_dropped :
    (∀ (dateParse : String → Option Int) (cur : Int),
      scrapCrawlDelayUpdate 429 ["5"] dateParse false none cur = max 5000 cur)
    ∧ (∀ (dateParse : String → Option Int) (cur : Int),
      scrapCrawlDelayUpdate 429 [] dateParse false none cur = cur + 1000)
    ∧ (∀ (dateParse : String → Option Int) (cur d : Int),
      scrapCrawlDelayUpdate 200 [] dateParse true (some d) cur = d)
    ∧ (∀ (s : OState) (r : Reply) (d : Int),
      applyReply s { r with crawlDelay := d } = applyReply s r) := by
  refine ⟨fun dp cur => rfl, fun dp cur => rfl, fun dp cur d => rfl, ?_⟩
  intro s r d
  cases r
  rfl

/-! ## Claim C2: the normal-termination condition -/

/-- Claim C2: when saturation has not fired, the measurement loop
terminates normally exactly when the lookup queue is empty, there are no
pending connections, no dispatched task is still in flight (no
worker-semaphore token held), and every active connection has empty
uncrawled and crawling sets. -/
theorem normal_termination (s : OState) (hsat : s.repeatedDailFails < 5) :
    (exitResult s).isSome ↔
      (s.pendingConns = [] ∧ s.pendingResolutions.urls = []
        ∧ s.inflightLookups = [] ∧ s.inflightCrawls = []
        ∧ ∀ c ∈ s.activeConns, c.uncrawledUrls = [] ∧ c.crawlingUrls = []) := by
  unfold exitResult
  rw [if_neg (by omega)]
  by_cases hA : s.pendingConns.length = 0 ∧ s.pendingResolutions.urls.length = 0 ∧ sem s = 0
  · rw [if_pos hA]
    obtain ⟨h1, h2, h3⟩ := hA
    have hp : s.pendingConns = [] := List.length_eq_zero.mp h1
    have hq : s.pendingResolutions.urls = [] := List.length_eq_zero.mp h2
    have hsem := h3
    unfold sem at hsem
    have hl : s.inflightLookups = [] := List.length_eq_zero.mp (by omega)
    have hc : s.inflightCrawls = [] := List.length_eq_zero.mp (by omega)
    by_cases hany : s.activeConns.any
        (fun c => decide (0 < c.uncrawledUrls.length + c.crawlingUrls.length)) = true
    · rw [if_pos hany]
      simp only [Option.isSome_none, Bool.false_eq_true, false_iff]
      rintro ⟨-, -, -, -, hall⟩
      rcases List.any_eq_true.mp hany with ⟨c, hcmem, hcp⟩
      obtain ⟨hu, hcr⟩ := hall c hcmem
      simp [hu, hcr] at hcp
    · rw [if_neg hany]
      simp only [Option.isSome_some, true_iff]
      refine ⟨hp, hq, hl, hc, ?_⟩
      intro c hcmem
      have h' : ¬ (0 < c.uncrawledUrls.length + c.crawlingUrls.length) := by
        intro hpos
        exact hany (List.any_eq_true.mpr ⟨c, hcmem, by simpa using hpos⟩)
      constructor
      · exact List.length_eq_zero.mp (by omega)
      · exact List.length_eq_zero.mp (by omega)
  · rw [if_neg hA]
    simp only [Option.isSome_none, Bool.false_eq_true, false_iff]
    rintro ⟨hp, hq, hl, hc, -⟩
    exact hA ⟨by simp [hp], by simp [hq], by simp [sem, hl, hc]⟩

/-- Witness for C2: the initial state of an empty seed list satisfies the
condition and the loop exits normally there. -/
theorem normal_termination_witness :
    (exitResult (initState [])).isSome = true := by
  exact (normal_termination (initState []) (by decide)).mpr
    ⟨rfl, by decide, rfl, rfl, by intro c hc; cases hc⟩

/-! ## Claim C1: saturation counting and the return value -/

/-- Claim C1 (amended): a fetch completion that locates its connection by
id among the active connections increments the consecutive-dial-failure
counter when its error is a dial error and resets the counter to zero
otherwise, while a completion whose connection is absent (a late arrival
for a removed connection) is dropped and leaves the counter unchanged;
the loop terminates with saturation as soon as the counter reaches 5, and
on any termination `MeasureMaxConnections` returns the number of
connections in the active set at that moment. -/
theorem saturation_behaviour :
    (∀ (s : OState) (r : Reply), (r.connId, r.url) ∈ s.inflightCrawls →
      (∀ i, indexConnectionById s.activeConns r.connId = some i →
        (applyReply s r).repeatedDailFails =
          (if isDialError r.err then s.repeatedDailFails + 1 else 0))
      ∧ (indexConnectionById s.activeConns r.connId = none →
        (applyReply s r).repeatedDailFails = s.repeatedDailFails))
    ∧ (∀ s : OState, 5 ≤ s.repeatedDailFails → exitResult s = some s.activeConns.length)
    ∧ (∀ (s : OState) (n : Nat), exitResult s = some n → n = s.activeConns.length) := by
  refine ⟨?_, ?_, ?_⟩
  · intro s r hmem
    constructor
    · intro i hidx
      rcases findIdx?_some_getElem _ s.activeConns i hidx with ⟨c, hc, -⟩
      unfold applyReply
      rw [if_pos hmem]
      simp only [hidx, hc]
      rfl
    · intro hidx
      unfold applyReply
      rw [if_pos hmem]
      simp only [hidx]
  · intro s h
    unfold exitResult
    rw [if_pos h]
  · intro s n h
    unfold exitResult at h
    split_ifs at h <;> simp_all

/-- A state for the C1 witness: four consecutive dial failures already
counted, one crawl in flight on the single active connection. -/
def c1wConn : Conn :=
  { id := 0, host := ⟨⟨.v4 1, 80⟩, "example.com:80"⟩, url := wUrl,
    uncrawledUrls := [], crawlingUrls := [⟨"/index.html", ""⟩], crawledUrls := [],
    lastRequest := 0, lastReply := 0 }

def c1wState : OState :=
  { pendingResolutions := ⟨[]⟩, pendingConns := [], activeConns := [c1wConn],
    inflightLookups := [], inflightCrawls := [(0, wUrl)],
    repeatedDailFails := 4, connectionIdCtr := 1 }

def c1wReply : Reply :=
  { connId := 0, url := wUrl, err := some (.opError "dial"),
    requestTs := 1, replyTs := 2, scrapedUrls := [], crawlDelay := 0 }

/-- Witness for C1: a fifth consecutive dial failure saturates the loop,
which returns the size of the (now empty) active set. -/
theorem saturation_behaviour_witness :
    (applyReply c1wState c1wReply).repeatedDailFails = 5
    ∧ exitResult (applyReply c1wState c1wReply) = some 0 := by
  have h1 := (saturation_behaviour.1 c1wState c1wReply (by decide)).1 0 (by decide)
  have hf : (applyReply c1wState c1wReply).repeatedDailFails = 5 := by
    rw [h1]; decide
  refine ⟨hf, ?_⟩
  have h2 := saturation_behaviour.2.1 (applyReply c1wState c1wReply) (by simp [hf])
  rw [h2]
  decide

/-- Reaching a state by folding a list of events is reaching it by
steps. -/
theorem reachable_foldl (urls : List Url) (es : List Event) :
    ∀ s : OState, Reachable urls s → Reachable urls (es.foldl applyEvent s) := by
  induction es with
  | nil => intro s h; exact h
  | cons e es ih => intro s h; exact ih _ (Reachable.step s e h)

/-- The events of the C1 counterexample run: one seed is resolved and
crawled; a second (keep-alive) crawl is dispatched while the first reply
is still pending; the first reply is a dial error, which removes the
connection and sets the counter to one. -/
def c1cexEvents : List Event :=
  [.lookupDispatch,
   .resolvedArrive ⟨wUrl, [⟨.v4 100, 80⟩]⟩,
   .crawlDispatch 10000 0,
   .crawlDispatch 20000 0,
   .replyArrive ⟨0, wUrl, some (.opError "dial"), 20000, 20100, [], 0⟩]

def c1cexState : OState := c1cexEvents.foldl applyEvent (initState [wUrl])

def c1cexLate : Reply := ⟨0, wUrl, none, 20200, 20300, [], 0⟩

/-- Counterexample to C1 as stated: in a reachable state a late, non-dial
fetch completion for the already-removed connection leaves the
consecutive-dial-failure counter at 1 instead of resetting it to zero, so
it is not the case that every completion whose error is not a dial error
resets the counter. -/
theorem saturation_counterexample :
    Reachable [wUrl] c1cexState
    ∧ (c1cexLate.connId, c1cexLate.url) ∈ c1cexState.inflightCrawls
    ∧ indexConnectionById c1cexState.activeConns c1cexLate.connId = none
    ∧ isDialError c1cexLate.err = false
    ∧ c1cexState.repeatedDailFails = 1
    ∧ (applyEvent c1cexState (.replyArrive c1cexLate)).repeatedDailFails = 1 := by
  refine ⟨reachable_foldl [wUrl] c1cexEvents (initState [wUrl]) Reachable.init,
    ?_, ?_, ?_, ?_, ?_⟩ <;> decide

/-! ## List helper lemmas for the state invariants -/

theorem removeFirst_sublist {α : Type} [DecidableEq α] :
    ∀ (l : List α) (a : α), List.Sublist (removeFirst l a) l := by
  intro l a
  induction l with
  | nil => exact List.Sublist.refl _
  | cons x xs ih =>
    by_cases h : x = a <;> simp only [removeFirst, h, if_true, if_false]
    · exact List.sublist_cons_self _ _
    · exact List.Sublist.cons₂ _ ih

theorem mem_of_mem_removeFirst {α : Type} [DecidableEq α] {l : List α} {a x : α}
    (h : x ∈ removeFirst l a) : x ∈ l :=
  (removeFirst_sublist l a).mem h

theorem not_mem_removeFirst_self {α : Type} [DecidableEq α] :
    ∀ (l : List α), l.Nodup → ∀ a : α, a ∉ removeFirst l a := by
  intro l
  induction l with
  | nil => intro _ a h; cases h
  | cons x xs ih =>
    intro hnd a
    rw [List.nodup_cons] at hnd
    by_cases h : x = a <;> simp only [removeFirst, h, if_true, if_false]
    · exact h ▸ hnd.1
    · intro hmem
      rcases List.mem_cons.mp hmem with rfl | hmem'
      · exact h rfl
      · exact ih hnd.2 a hmem'

theorem mem_removeFirst_of_ne {α : Type} [DecidableEq α] :
    ∀ (l : List α) (a x : α), x ∈ l → x ≠ a → x ∈ removeFirst l a := by
  intro l
  induction l with
  | nil => intro a x h; cases h
  | cons y ys ih =>
    intro a x hx hne
    by_cases h : y = a <;> simp only [removeFirst, h, if_true, if_false]
    · rcases List.mem_cons.mp hx with rfl | hx'
      · exact absurd h hne
      · exact hx'
    · rcases List.mem_cons.mp hx with rfl | hx'
      · exact List.mem_cons_self _ _
      · exact List.mem_cons_of_mem _ (ih a x hx' hne)

theorem removeFirst_nodup {α : Type} [DecidableEq α] {l : List α} (h : l.Nodup)
    (a : α) : (removeFirst l a).Nodup :=
  h.sublist (removeFirst_sublist l a)

theorem mem_mapInsert {α : Type} [DecidableEq α] (l : List α) (a x : α) :
    x ∈ mapInsert l a ↔ x ∈ l ∨ x = a := by
  unfold mapInsert
  by_cases h : a ∈ l <;> simp only [h, if_true, if_false]
  · constructor
    · exact Or.inl
    · rintro (hx | rfl)
      · exact hx
      · exact h
  · simp [List.mem_append]

theorem mapInsert_nodup {α : Type} [DecidableEq α] {l : List α} (h : l.Nodup)
    (a : α) : (mapInsert l a).Nodup := by
  unfold mapInsert
  by_cases hm : a ∈ l <;> simp only [hm, if_true, if_false]
  · exact h
  · rw [List.nodup_append]
    exact ⟨h, List.nodup_singleton _, by
      intro x hx hx'
      have : x = a := by simpa using hx'
      exact hm (this ▸ hx)⟩

theorem map_set_eq {α β : Type} (f : α → β) :
    ∀ (l : List α) (i : Nat) (a b : α), l[i]? = some a → f b = f a →
      (l.set i b).map f = l.map f := by
  intro l
  induction l with
  | nil => intro i a b h; simp at h
  | cons x xs ih =>
    intro i a b h hf
    match i with
    | 0 =>
      simp only [List.getElem?_cons_zero, Option.some_inj] at h
      subst h
      simp [List.set, hf]
    | j + 1 =>
      simp only [List.getElem?_cons_succ] at h
      simp [List.set, ih j a b h hf]

theorem exists_mem_of_map_eq {α β : Type} (F : α → β) :
    ∀ (m l : List α), m.map F = l.map F → ∀ b ∈ m, ∃ a ∈ l, F a = F b := by
  intro m
  induction m with
  | nil => intro l h b hb; cases hb
  | cons x m ih =>
    intro l h b hb
    cases l with
    | nil => simp at h
    | cons a l =>
      simp only [List.map_cons, List.cons.injEq] at h
      rcases List.mem_cons.mp hb with rfl | hb'
      · exact ⟨a, List.mem_cons_self _ _, h.1.symm⟩
      · rcases ih l h.2 b hb' with ⟨a', ha', hf⟩
        exact ⟨a', List.mem_cons_of_mem _ ha', hf⟩

/-! ## The per-connection set invariant and the global state invariant -/

/-- The amended per-connection invariant: the three relative-URL sets are
duplicate-free and the uncrawled set is disjoint from both the crawling
and the crawled set. -/
def ConnSetsInv (c : Conn) : Prop :=
  c.uncrawledUrls.Nodup ∧ c.crawlingUrls.Nodup ∧ c.crawledUrls.Nodup
  ∧ (∀ r ∈ c.uncrawledUrls, r ∉ c.crawlingUrls)
  ∧ (∀ r ∈ c.uncrawledUrls, r ∉ c.crawledUrls)

/-- All connections the orchestrator tracks, pending before active. -/
def conns (s : OState) : List Conn := s.pendingConns ++ s.activeConns

/-- The pinned endpoints of all tracked connections. -/
def ipsOf (s : OState) : List addrPort := (conns s).map (fun c => c.host.ip)

/-- The ids of all tracked connections. -/
def idsOf (s : OState) : List Nat := (conns s).map (fun c => c.id)

/-- The inductive invariant of the orchestrator loop: pinned endpoints are
pairwise distinct, every connection's URL sets satisfy `ConnSetsInv`,
every in-flight crawl's relative URL is crawling or crawled on the
connection that owns it, ids are pairwise distinct, and all ids (of
connections and of in-flight crawls) are below the id counter. -/
def MasterInv (s : OState) : Prop :=
  (ipsOf s).Nodup
  ∧ (∀ c ∈ conns s, ConnSetsInv c)
  ∧ (∀ p ∈ s.inflightCrawls, ∀ c ∈ conns s, c.id = p.1 →
      urlToRelativeUrl p.2 ∈ c.crawlingUrls ∨ urlToRelativeUrl p.2 ∈ c.crawledUrls)
  ∧ (idsOf s).Nodup
  ∧ (∀ c ∈ conns s, c.id < s.connectionIdCtr)
  ∧ (∀ p ∈ s.inflightCrawls, p.1 < s.connectionIdCtr)

/-- The components of a connection that the scraped-URL push loop leaves
untouched: id, host, crawling set, crawled set. -/
def connFrame (c : Conn) : Nat × Host × List relativeUrl × List relativeUrl :=
  (c.id, c.host, c.crawlingUrls, c.crawledUrls)

theorem modifyConn_map_eq {β : Type} (F : Conn → β) (l : List Conn) (j : Nat)
    (g : Conn → Conn) (hg : ∀ c, F (g c) = F c) :
    (modifyConn l j g).map F = l.map F := by
  unfold modifyConn
  cases hc : l[j]? with
  | none => rfl
  | some c => exact map_set_eq F l j c (g c) hc (hg c)

theorem modifyConn_forall {P : Conn → Prop} (l : List Conn) (j : Nat)
    (g : Conn → Conn) (hg : ∀ c, P c → P (g c)) (h : ∀ c ∈ l, P c) :
    ∀ c ∈ modifyConn l j g, P c := by
  unfold modifyConn
  cases hc : l[j]? with
  | none => exact h
  | some c0 =>
    intro c hmem
    rcases List.mem_or_eq_of_mem_set hmem with hm | rfl
    · exact h c hm
    · exact hg c0 (h c0 (mem_of_getElem?_eq _ _ _ hc))

theorem pushScraped_frame :
    ∀ (us : List Url) (cs : List Conn),
      ((pushScraped cs us).1).map connFrame = cs.map connFrame := by
  intro us
  induction us with
  | nil => intro cs; rfl
  | cons u us ih =>
    intro cs
    cases hidx : indexConnectionByHostPort cs u with
    | some j =>
      simp only [pushScraped, hidx]
      rw [ih]
      refine modifyConn_map_eq _ cs j _ ?_
      intro c
      dsimp only
      split <;> rfl
    | none =>
      simp only [pushScraped, hidx]
      exact ih cs

theorem pushScraped_inv :
    ∀ (us : List Url) (cs : List Conn), (∀ c ∈ cs, ConnSetsInv c) →
      ∀ c' ∈ (pushScraped cs us).1, ConnSetsInv c' := by
  intro us
  induction us with
  | nil => intro cs h; exact h
  | cons u us ih =>
    intro cs h
    cases hidx : indexConnectionByHostPort cs u with
    | some j =>
      simp only [pushScraped, hidx]
      refine ih _ (modifyConn_forall cs j _ ?_ h)
      intro c hc
      dsimp only
      split
      case isTrue => exact hc
      case isFalse hguard =>
        push_neg at hguard
        obtain ⟨hnc, hnd⟩ := hguard
        obtain ⟨h1, h2, h3, h4, h5⟩ := hc
        refine ⟨mapInsert_nodup h1 _, h2, h3, ?_, ?_⟩
        · intro x hx
          rcases (mem_mapInsert _ _ _).mp hx with hx' | rfl
          · exact h4 x hx'
          · exact hnc
        · intro x hx
          rcases (mem_mapInsert _ _ _).mp hx with hx' | rfl
          · exact h5 x hx'
          · exact hnd
    | none =>
      simp only [pushScraped, hidx]
      exact ih cs h

theorem pushScraped_mem_frame (us : List Url) (cs : List Conn) :
    ∀ c' ∈ (pushScraped cs us).1, ∃ c ∈ cs, connFrame c = connFrame c' :=
  exists_mem_of_map_eq connFrame _ cs (pushScraped_frame us cs)

theorem map_of_frame_eq {γ : Type} (g : Nat × Host × List relativeUrl × List relativeUrl → γ)
    {m l : List Conn} (h : m.map connFrame = l.map connFrame) :
    m.map (fun c => g (connFrame c)) = l.map (fun c => g (connFrame c)) := by
  have := congrArg (List.map g) h
  simpa [List.map_map] using this

theorem pushScraped_ids (us : List Url) (cs : List Conn) :
    ((pushScraped cs us).1).map (fun c => c.id) = cs.map (fun c => c.id) :=
  map_of_frame_eq (fun t => t.1) (pushScraped_frame us cs)

theorem pushScraped_ips (us : List Url) (cs : List Conn) :
    ((pushScraped cs us).1).map (fun c => c.host.ip) = cs.map (fun c => c.host.ip) :=
  map_of_frame_eq (fun t => t.2.1.ip) (pushScraped_frame us cs)

theorem mem_set_cases {α : Type} :
    ∀ (l : List α) (i : Nat) (a b : α), b ∈ l.set i a →
      (i < l.length ∧ b = a) ∨ ∃ k, ∃ hk : k < l.length, k ≠ i ∧ l[k] = b := by
  intro l
  induction l with
  | nil => intro i a b h; simp at h
  | cons x xs ih =>
    intro i a b h
    match i with
    | 0 =>
      simp only [List.set] at h
      rcases List.mem_cons.mp h with rfl | h'
      · exact Or.inl ⟨by simp, rfl⟩
      · rcases List.mem_iff_getElem.mp h' with ⟨k, hk, rfl⟩
        exact Or.inr ⟨k + 1, by simpa using Nat.succ_lt_succ hk, by omega, by simp⟩
    | j + 1 =>
      simp only [List.set] at h
      rcases List.mem_cons.mp h with rfl | h'
      · exact Or.inr ⟨0, by simp, by omega, rfl⟩
      · rcases ih j a b h' with ⟨hj, rfl⟩ | ⟨k, hk, hkj, rfl⟩
        · exact Or.inl ⟨by simpa using Nat.succ_lt_succ hj, rfl⟩
        · exact Or.inr ⟨k + 1, by simpa using Nat.succ_lt_succ hk, by omega, by simp⟩

theorem ids_getElem_ne (act : List Conn)
    (hnodup : (act.map (fun c => c.id)).Nodup)
    {i k : Nat} (hi : i < act.length) (hk : k < act.length) (hne : k ≠ i) :
    act[k].id ≠ act[i].id := by
  intro heq
  have hmi : i < (act.map (fun c => c.id)).length := by simpa using hi
  have hmk : k < (act.map (fun c => c.id)).length := by simpa using hk
  have h1 : (act.map (fun c => c.id))[k] = (act.map (fun c => c.id))[i] := by
    simpa [List.getElem_map] using heq
  exact hne (hnodup.getElem_inj_iff.mp h1)

theorem masterInv_congr (s s' : OState)
    (h1 : s'.pendingConns = s.pendingConns) (h2 : s'.activeConns = s.activeConns)
    (h3 : s'.inflightCrawls = s.inflightCrawls)
    (h4 : s'.connectionIdCtr = s.connectionIdCtr) :
    MasterInv s → MasterInv s' := by
  unfold MasterInv ipsOf idsOf conns
  rw [h1, h2, h3, h4]
  exact id

theorem master_lookupDispatch (s : OState) (hI : MasterInv s) :
    MasterInv (applyLookupDispatch s) := by
  refine masterInv_congr s _ ?_ ?_ ?_ ?_ hI <;>
    (unfold applyLookupDispatch; (repeat' split) <;> rfl)

theorem nodup_map_append_singleton {β : Type} [DecidableEq β] (f : Conn → β)
    (p act : List Conn) (x : Conn)
    (h : ((p ++ act).map f).Nodup) (hx : f x ∉ (p ++ act).map f) :
    (((p ++ [x]) ++ act).map f).Nodup := by
  have hperm : List.Perm ((p ++ [x]) ++ act) (x :: (p ++ act)) := by
    rw [List.append_assoc]
    exact List.perm_middle
  refine ((hperm.map f).nodup_iff).mpr ?_
  simp only [List.map_cons, List.nodup_cons]
  exact ⟨hx, h⟩

theorem mem_append_singleton_mid {p act : List Conn} {x c : Conn}
    (h : c ∈ (p ++ [x]) ++ act) : c ∈ p ++ act ∨ c = x := by
  rcases List.mem_append.mp h with h1 | h2
  · rcases List.mem_append.mp h1 with h3 | h4
    · exact Or.inl (List.mem_append_left _ h3)
    · exact Or.inr (by simpa using h4)
  · exact Or.inl (List.mem_append_right _ h2)

theorem master_resolved (s : OState) (h : resolvedUrl) (hI : MasterInv s) :
    MasterInv (applyResolved s h) := by
  unfold applyResolved
  by_cases hmem : h.url ∈ s.inflightLookups
  · rw [if_pos hmem]
    cases hfil : h.addresses.filter (fun a =>
        (indexConnectionByAddr s.pendingConns a).isNone &&
        (indexConnectionByAddr s.activeConns a).isNone) with
    | nil => exact masterInv_congr s _ rfl rfl rfl rfl hI
    | cons a rest =>
      obtain ⟨hips, hsets, hinfl, hids, hbound, hpbound⟩ := hI
      have hafil : a ∈ h.addresses.filter (fun a =>
          (indexConnectionByAddr s.pendingConns a).isNone &&
          (indexConnectionByAddr s.activeConns a).isNone) := by
        rw [hfil]; exact List.mem_cons_self _ _
      have hpred := (List.mem_filter.mp hafil).2
      rw [Bool.and_eq_true] at hpred
      have hpnone : indexConnectionByAddr s.pendingConns a = none :=
        Option.isNone_iff_eq_none.mp hpred.1
      have hanone : indexConnectionByAddr s.activeConns a = none :=
        Option.isNone_iff_eq_none.mp hpred.2
      have hpfa := findIdx?_none_forall _ s.pendingConns hpnone
      have hafa := findIdx?_none_forall _ s.activeConns hanone
      have hnotmem : a ∉ (s.pendingConns ++ s.activeConns).map (fun c => c.host.ip) := by
        intro hmem'
        rcases List.mem_map.mp hmem' with ⟨c, hc, hca⟩
        rcases List.mem_append.mp hc with hc' | hc'
        · have := hpfa c hc'; simp [hca] at this
        · have := hafa c hc'; simp [hca] at this
      refine ⟨?_, ?_, ?_, ?_, ?_, ?_⟩
      · exact nodup_map_append_singleton _ _ _ _ hips hnotmem
      · intro c hc
        rcases mem_append_singleton_mid hc with hc' | rfl
        · exact hsets c hc'
        · simp [ConnSetsInv, makeConnection]
      · intro p hp c hc hcid
        rcases mem_append_singleton_mid hc with hc' | rfl
        · exact hinfl p hp c hc' hcid
        · exact absurd (hcid ▸ hpbound p hp) (by simp)
      · refine nodup_map_append_singleton _ _ _ _ hids ?_
        intro hmem'
        rcases List.mem_map.mp hmem' with ⟨c, hc, hca⟩
        exact absurd (hca ▸ hbound c hc) (by simp)
      · intro c hc
        rcases mem_append_singleton_mid hc with hc' | rfl
        · exact Nat.lt_succ_of_lt (hbound c hc')
        · exact Nat.lt_succ_self _
      · intro p hp
        exact Nat.lt_succ_of_lt (hpbound p hp)
  · rw [if_neg hmem]
    exact hI

theorem getElem?_some_lt {α : Type} :
    ∀ (l : List α) (i : Nat) (a : α), l[i]? = some a → i < l.length := by
  intro l
  induction l with
  | nil => intro i a h; simp at h
  | cons x xs ih =>
    intro i a h
    match i with
    | 0 => simp
    | j + 1 =>
      simp only [List.getElem?_cons_succ] at h
      simpa using Nat.succ_lt_succ (ih j a h)

theorem getElem_of_getElem? {α : Type} :
    ∀ (l : List α) (i : Nat) (a : α) (h : l[i]? = some a) (hi : i < l.length),
      l[i] = a := by
  intro l
  induction l with
  | nil => intro i a h; simp at h
  | cons x xs ih =>
    intro i a h hi
    match i with
    | 0 => simpa using h
    | j + 1 =>
      simp only [List.getElem?_cons_succ] at h
      simpa using ih j a h (by simpa using Nat.lt_of_succ_lt_succ hi)

theorem connSetsInv_dispatchUpdate (c : Conn) (tg : Url) (now : Nat)
    (h : ConnSetsInv c) : ConnSetsInv (dispatchUpdate c tg now) := by
  obtain ⟨h1, h2, h3, h4, h5⟩ := h
  refine ⟨removeFirst_nodup h1 _, mapInsert_nodup h2 _, h3, ?_, ?_⟩
  · intro x hx
    have hxu : x ∈ c.uncrawledUrls := mem_of_mem_removeFirst hx
    have hxr : x ≠ urlToRelativeUrl tg := by
      intro heq
      exact not_mem_removeFirst_self _ h1 _ (heq ▸ hx)
    intro hmem
    rcases (mem_mapInsert _ _ _).mp hmem with hm | heq
    · exact h4 x hxu hm
    · exact hxr heq
  · intro x hx
    exact h5 x (mem_of_mem_removeFirst hx)

theorem perm_t_act_append (t act : List Conn) (x : Conn) :
    List.Perm (t ++ (act ++ [x])) (x :: (t ++ act)) := by
  rw [← List.append_assoc]
  exact List.perm_append_singleton _ _

theorem master_dispatch_pending (s : OState) (now pick : Nat) (c : Conn)
    (t : List Conn) (hp : s.pendingConns = c :: t) (hI : MasterInv s) :
    MasterInv { s with
      pendingConns := t
      activeConns := s.activeConns ++ [dispatchUpdate c (dispatchTarget c pick) now]
      inflightCrawls := s.inflightCrawls ++ [(c.id, dispatchTarget c pick)] } := by
  obtain ⟨hips, hsets, hinfl, hids, hbound, hpbound⟩ := hI
  have hconns : conns s = c :: (t ++ s.activeConns) := by
    unfold conns; rw [hp]; rfl
  have hperm := perm_t_act_append t s.activeConns
    (dispatchUpdate c (dispatchTarget c pick) now)
  have hcmem : c ∈ conns s := by rw [hconns]; exact List.mem_cons_self _ _
  have hidnot : c.id ∉ (t ++ s.activeConns).map (fun d => d.id) := by
    have := hids
    rw [idsOf, hconns, List.map_cons, List.nodup_cons] at this
    exact this.1
  refine ⟨?_, ?_, ?_, ?_, ?_, ?_⟩
  · refine ((hperm.map (fun d => d.host.ip)).nodup_iff).mpr ?_
    have := hips
    rw [ipsOf, hconns] at this
    exact this
  · intro d hd
    rcases List.mem_cons.mp ((hperm.mem_iff).mp hd) with rfl | hd'
    · exact connSetsInv_dispatchUpdate c _ now (hsets c hcmem)
    · exact hsets d (by rw [hconns]; exact List.mem_cons_of_mem _ hd')
  · intro p hpmem d hd hdid
    have hd' := (hperm.mem_iff).mp hd
    rcases List.mem_append.mp hpmem with hold | hnew
    · rcases List.mem_cons.mp hd' with rfl | hd''
      · have hcp : c.id = p.1 := hdid
        rcases hinfl p hold c hcmem hcp with hcr | hcd
        · exact Or.inl ((mem_mapInsert _ _ _).mpr (Or.inl hcr))
        · exact Or.inr hcd
      · exact hinfl p hold d (by rw [hconns]; exact List.mem_cons_of_mem _ hd'') hdid
    · have hpn : p = (c.id, dispatchTarget c pick) := by simpa using hnew
      subst hpn
      rcases List.mem_cons.mp hd' with rfl | hd''
      · exact Or.inl ((mem_mapInsert _ _ _).mpr (Or.inr rfl))
      · exfalso
        have hdid' : d.id = c.id := hdid
        exact hidnot (hdid' ▸ List.mem_map.mpr ⟨d, hd'', rfl⟩)
  · refine ((hperm.map (fun d => d.id)).nodup_iff).mpr ?_
    have := hids
    rw [idsOf, hconns] at this
    exact this
  · intro d hd
    rcases List.mem_cons.mp ((hperm.mem_iff).mp hd) with rfl | hd'
    · exact hbound c hcmem
    · exact hbound d (by rw [hconns]; exact List.mem_cons_of_mem _ hd')
  · intro p hpmem
    rcases List.mem_append.mp hpmem with hold | hnew
    · exact hpbound p hold
    · have hpn : p = (c.id, dispatchTarget c pick) := by simpa using hnew
      subst hpn
      exact hbound c hcmem

theorem master_dispatch_active (s : OState) (now pick : Nat) (i : Nat) (c : Conn)
    (hc : s.activeConns[i]? = some c) (hI : MasterInv s) :
    MasterInv { s with
      activeConns := s.activeConns.set i (dispatchUpdate c (dispatchTarget c pick) now)
      inflightCrawls := s.inflightCrawls ++ [(c.id, dispatchTarget c pick)] } := by
  obtain ⟨hips, hsets, hinfl, hids, hbound, hpbound⟩ := hI
  have hilen : i < s.activeConns.length := getElem?_some_lt _ i c hc
  have hcmemA : c ∈ s.activeConns := mem_of_getElem?_eq _ i c hc
  have hcmem : c ∈ conns s := List.mem_append_right _ hcmemA
  have hidsplit : (s.pendingConns.map (fun d => d.id)).Nodup
      ∧ (s.activeConns.map (fun d => d.id)).Nodup
      ∧ (s.pendingConns.map (fun d => d.id)).Disjoint
          (s.activeConns.map (fun d => d.id)) := by
    have := hids
    rw [idsOf, conns, List.map_append, List.nodup_append] at this
    exact this
  refine ⟨?_, ?_, ?_, ?_, ?_, ?_⟩
  · show ((s.pendingConns ++
      s.activeConns.set i (dispatchUpdate c (dispatchTarget c pick) now)).map
        (fun d => d.host.ip)).Nodup
    have hmip : (s.activeConns.set i
        (dispatchUpdate c (dispatchTarget c pick) now)).map (fun d => d.host.ip)
        = s.activeConns.map (fun d => d.host.ip) :=
      map_set_eq _ s.activeConns i c _ hc rfl
    rw [List.map_append, hmip, ← List.map_append]
    exact hips
  · intro d hd
    rcases List.mem_append.mp hd with hdp | hdset
    · exact hsets d (List.mem_append_left _ hdp)
    · rcases List.mem_or_eq_of_mem_set hdset with hda | rfl
      · exact hsets d (List.mem_append_right _ hda)
      · exact connSetsInv_dispatchUpdate _ _ _ (hsets c hcmem)
  · intro p hpmem d hd hdid
    rcases List.mem_append.mp hpmem with hold | hnew
    · rcases List.mem_append.mp hd with hdp | hdset
      · exact hinfl p hold d (List.mem_append_left _ hdp) hdid
      · rcases List.mem_or_eq_of_mem_set hdset with hda | rfl
        · exact hinfl p hold d (List.mem_append_right _ hda) hdid
        · have hcid : c.id = p.1 := hdid
          rcases hinfl p hold c hcmem hcid with hcr | hcd
          · exact Or.inl ((mem_mapInsert _ _ _).mpr (Or.inl hcr))
          · exact Or.inr hcd
    · have hpn : p = (c.id, dispatchTarget c pick) := by simpa using hnew
      subst hpn
      rcases List.mem_append.mp hd with hdp | hdset
      · exfalso
        have hdid' : d.id = c.id := hdid
        exact hidsplit.2.2 (List.mem_map.mpr ⟨d, hdp, rfl⟩)
          (by rw [hdid']; exact List.mem_map.mpr ⟨c, hcmemA, rfl⟩)
      · rcases mem_set_cases _ i _ d hdset with ⟨_, rfl⟩ | ⟨k, hk, hki, hkd⟩
        · exact Or.inl ((mem_mapInsert _ _ _).mpr (Or.inr rfl))
        · exfalso
          have hne := ids_getElem_ne s.activeConns hidsplit.2.1 hilen hk hki
          have hieq : s.activeConns[i] = c := getElem_of_getElem? _ i c hc hilen
          refine hne ?_
          rw [hkd, hieq]
          exact hdid
  · show ((s.pendingConns ++
      s.activeConns.set i (dispatchUpdate c (dispatchTarget c pick) now)).map
        (fun d => d.id)).Nodup
    have hmid : (s.activeConns.set i
        (dispatchUpdate c (dispatchTarget c pick) now)).map (fun d => d.id)
        = s.activeConns.map (fun d => d.id) :=
      map_set_eq _ s.activeConns i c _ hc rfl
    rw [List.map_append, hmid, ← List.map_append]
    exact hids
  · intro d hd
    rcases List.mem_append.mp hd with hdp | hdset
    · exact hbound d (List.mem_append_left _ hdp)
    · rcases List.mem_or_eq_of_mem_set hdset with hda | rfl
      · exact hbound d (List.mem_append_right _ hda)
      · exact hbound c hcmem
  · intro p hpmem
    rcases List.mem_append.mp hpmem with hold | hnew
    · exact hpbound p hold
    · have hpn : p = (c.id, dispatchTarget c pick) := by simpa using hnew
      subst hpn
      exact hbound c hcmem

theorem master_crawlDispatch (s : OState) (now pick : Nat) (hI : MasterInv s) :
    MasterInv (applyCrawlDispatch s now pick) := by
  unfold applyCrawlDispatch
  by_cases hsem : sem s < workerLimit
  · rw [if_pos hsem]
    cases hg : getNextConnectionRef s.pendingConns s.activeConns
        (workerLimit - sem s) now with
    | none => exact hI
    | some ref =>
      cases ref with
      | pendingHead =>
        dsimp only
        cases hp : s.pendingConns with
        | nil => exact hI
        | cons c t => exact master_dispatch_pending s now pick c t hp hI
      | activeIdx i =>
        dsimp only
        cases hc : s.activeConns[i]? with
        | none => exact hI
        | some c => exact master_dispatch_active s now pick i c hc hI
  · rw [if_neg hsem]
    exact hI

theorem connFrame_eq_iff {c d : Conn} (h : connFrame c = connFrame d) :
    c.id = d.id ∧ c.host = d.host ∧ c.crawlingUrls = d.crawlingUrls
      ∧ c.crawledUrls = d.crawledUrls :=
  ⟨congrArg (fun t => t.1) h, congrArg (fun t => t.2.1) h,
   congrArg (fun t => t.2.2.1) h, congrArg (fun t => t.2.2.2) h⟩

theorem master_inflight_shrink (s : OState) (q : Nat × Url) (hI : MasterInv s) :
    MasterInv { s with inflightCrawls := removeFirst s.inflightCrawls q } := by
  obtain ⟨hips, hsets, hinfl, hids, hbound, hpbound⟩ := hI
  refine ⟨hips, hsets, ?_, hids, hbound, ?_⟩
  · intro p hp
    exact hinfl p (mem_of_mem_removeFirst hp)
  · intro p hp
    exact hpbound p (mem_of_mem_removeFirst hp)

theorem replyActive_sublist_map {β : Type} (F : Conn → β) (s : OState) (r : Reply)
    (i : Nat) (c : Conn) (hc : s.activeConns[i]? = some c)
    (hF : F (replyConnUpdate c (urlToRelativeUrl r.url) r) = F c) :
    List.Sublist ((replyActive s r i c).map F) (s.activeConns.map F) := by
  have hset : (s.activeConns.set i
      (replyConnUpdate c (urlToRelativeUrl r.url) r)).map F
      = s.activeConns.map F :=
    map_set_eq F s.activeConns i c _ hc hF
  unfold replyActive
  split
  · have h2 := ((s.activeConns.set i
      (replyConnUpdate c (urlToRelativeUrl r.url) r)).eraseIdx_sublist i).map F
    rw [hset] at h2
    exact h2
  · rw [hset]

theorem replyActive_mem (s : OState) (r : Reply) (i : Nat) (c : Conn) :
    ∀ d ∈ replyActive s r i c,
      d = replyConnUpdate c (urlToRelativeUrl r.url) r ∨ d ∈ s.activeConns := by
  unfold replyActive
  split
  · intro d hd
    have hd' := (List.eraseIdx_sublist _ i).mem hd
    rcases List.mem_or_eq_of_mem_set hd' with hm | rfl
    · exact Or.inr hm
    · exact Or.inl rfl
  · intro d hd
    rcases List.mem_or_eq_of_mem_set hd with hm | rfl
    · exact Or.inr hm
    · exact Or.inl rfl

theorem master_reply_core (s : OState) (r : Reply) (i : Nat) (c : Conn)
    (hmemInfl : (r.connId, r.url) ∈ s.inflightCrawls)
    (hidx : indexConnectionById s.activeConns r.connId = some i)
    (hc : s.activeConns[i]? = some c) (hI : MasterInv s) :
    MasterInv (applyReplyCore s r i c) := by
  obtain ⟨hips, hsets, hinfl, hids, hbound, hpbound⟩ := hI
  have hcmemA : c ∈ s.activeConns := mem_of_getElem?_eq _ i c hc
  have hcmem : c ∈ conns s := List.mem_append_right _ hcmemA
  have hcid : c.id = r.connId := by
    rcases findIdx?_some_getElem _ s.activeConns i hidx with ⟨x, hx, hpx⟩
    rw [hc] at hx
    have hxc : x = c := (Option.some_inj.mp hx).symm
    subst hxc
    simpa using hpx
  have hrUcc : urlToRelativeUrl r.url ∈ c.crawlingUrls
      ∨ urlToRelativeUrl r.url ∈ c.crawledUrls :=
    hinfl (r.connId, r.url) hmemInfl c hcmem hcid
  have hcinv := hsets c hcmem
  have hrUnotU : urlToRelativeUrl r.url ∉ c.uncrawledUrls := by
    rcases hrUcc with h | h
    · intro hu; exact hcinv.2.2.2.1 _ hu h
    · intro hu; exact hcinv.2.2.2.2 _ hu h
  have hc'inv : ConnSetsInv (replyConnUpdate c (urlToRelativeUrl r.url) r) := by
    obtain ⟨h1, h2, h3, h4, h5⟩ := hcinv
    refine ⟨h1, removeFirst_nodup h2 _, mapInsert_nodup h3 _, ?_, ?_⟩
    · intro x hx hx'
      exact h4 x hx (mem_of_mem_removeFirst hx')
    · intro x hx hx'
      rcases (mem_mapInsert _ _ _).mp hx' with hm | heq
      · exact h5 x hx hm
      · exact hrUnotU (heq ▸ hx)
  have hact2inv : ∀ d ∈ replyActive s r i c, ConnSetsInv d := by
    intro d hd
    rcases replyActive_mem s r i c d hd with rfl | hm
    · exact hc'inv
    · exact hsets d (List.mem_append_right _ hm)
  have hact2infl : ∀ p ∈ s.inflightCrawls, ∀ d ∈ replyActive s r i c,
      d.id = p.1 →
      urlToRelativeUrl p.2 ∈ d.crawlingUrls ∨ urlToRelativeUrl p.2 ∈ d.crawledUrls := by
    intro p hp d hd hdid
    rcases replyActive_mem s r i c d hd with rfl | hm
    · have hcp : c.id = p.1 := hdid
      rcases hinfl p hp c hcmem hcp with hcr | hcd
      · by_cases heq : urlToRelativeUrl p.2 = urlToRelativeUrl r.url
        · exact Or.inr ((mem_mapInsert _ _ _).mpr (Or.inr heq))
        · exact Or.inl (mem_removeFirst_of_ne _ _ _ hcr heq)
      · exact Or.inr ((mem_mapInsert _ _ _).mpr (Or.inl hcd))
    · exact hinfl p hp d (List.mem_append_right _ hm) hdid
  have hact2bound : ∀ d ∈ replyActive s r i c, d.id < s.connectionIdCtr := by
    intro d hd
    rcases replyActive_mem s r i c d hd with rfl | hm
    · exact hbound c hcmem
    · exact hbound d (List.mem_append_right _ hm)
  refine ⟨?_, ?_, ?_, ?_, ?_, ?_⟩
  · show ((s.pendingConns ++
      (pushScraped (replyActive s r i c) r.scrapedUrls).1).map
        (fun d => d.host.ip)).Nodup
    rw [List.map_append, pushScraped_ips]
    have hips' := hips
    rw [ipsOf, conns, List.map_append] at hips'
    exact hips'.sublist
      ((replyActive_sublist_map (fun d => d.host.ip) s r i c hc rfl).append_left _)
  · intro d hd
    rcases List.mem_append.mp hd with hdp | hdpush
    · exact hsets d (List.mem_append_left _ hdp)
    · exact pushScraped_inv _ _ hact2inv d hdpush
  · intro p hp d hd hdid
    have hp' : p ∈ s.inflightCrawls := mem_of_mem_removeFirst hp
    rcases List.mem_append.mp hd with hdp | hdpush
    · exact hinfl p hp' d (List.mem_append_left _ hdp) hdid
    · rcases pushScraped_mem_frame r.scrapedUrls (replyActive s r i c) d hdpush
        with ⟨e, he, hframe⟩
      obtain ⟨hid, -, hcr, hcd⟩ := connFrame_eq_iff hframe
      rw [← hcr, ← hcd]
      exact hact2infl p hp' e he (hid.trans hdid)
  · show ((s.pendingConns ++
      (pushScraped (replyActive s r i c) r.scrapedUrls).1).map
        (fun d => d.id)).Nodup
    rw [List.map_append, pushScraped_ids]
    have hids' := hids
    rw [idsOf, conns, List.map_append] at hids'
    exact hids'.sublist
      ((replyActive_sublist_map (fun d => d.id) s r i c hc rfl).append_left _)
  · intro d hd
    rcases List.mem_append.mp hd with hdp | hdpush
    · exact hbound d (List.mem_append_left _ hdp)
    · rcases pushScraped_mem_frame r.scrapedUrls (replyActive s r i c) d hdpush
        with ⟨e, he, hframe⟩
      obtain ⟨hid, -, -, -⟩ := connFrame_eq_iff hframe
      exact hid ▸ hact2bound e he
  · intro p hp
    exact hpbound p (mem_of_mem_removeFirst hp)

theorem master_reply (s : OState) (r : Reply) (hI : MasterInv s) :
    MasterInv (applyReply s r) := by
  unfold applyReply
  by_cases hmem : (r.connId, r.url) ∈ s.inflightCrawls
  · rw [if_pos hmem]
    cases hidx : indexConnectionById s.activeConns r.connId with
    | none => exact master_inflight_shrink s _ hI
    | some i =>
      dsimp only
      cases hc : s.activeConns[i]? with
      | none => exact master_inflight_shrink s _ hI
      | some c => exact master_reply_core s r i c hmem hidx hc hI
  · rw [if_neg hmem]
    exact hI

/-- Every arm of the select preserves the master invariant. -/
theorem master_step (s : OState) (e : Event) (hI : MasterInv s) :
    MasterInv (applyEvent s e) := by
  cases e with
  | tick => exact hI
  | lookupDispatch => exact master_lookupDispatch s hI
  | resolvedArrive h => exact master_resolved s h hI
  | crawlDispatch now pick => exact master_crawlDispatch s now pick hI
  | replyArrive r => exact master_reply s r hI

/-- The master invariant holds in every reachable state. -/
theorem master_invariant (urls : List Url) (s : OState)
    (h : Reachable urls s) : MasterInv s := by
  induction h with
  | init =>
    refine ⟨?_, ?_, ?_, ?_, ?_, ?_⟩ <;>
      simp [initState, ipsOf, idsOf, conns, MasterInv]
  | step s e hr ih => exact master_step s e ih

/-! ## Claim C3: endpoint uniqueness and resolved-address acceptance -/

/-- Claim C3 (amended): in every reachable orchestrator state no two
connections (pending or active) share a pinned endpoint; when a resolved
endpoint list arrives, the first endpoint not already pinned by any
existing pending or active connection becomes a new pending connection's
endpoint, and if every endpoint in the list is already pinned the result
is discarded and no connection is created.  (Two connections may share a
host key: acceptance filters by endpoint only.) -/
theorem endpoint_uniqueness :
    (∀ (urls : List Url) (s : OState), Reachable urls s →
      ((s.pendingConns ++ s.activeConns).map (fun c => c.host.ip)).Nodup)
    ∧ (∀ (s : OState) (h : resolvedUrl), h.url ∈ s.inflightLookups →
        (h.addresses.filter (fun a =>
            (indexConnectionByAddr s.pendingConns a).isNone &&
            (indexConnectionByAddr s.activeConns a).isNone) = [] →
          (applyResolved s h).pendingConns = s.pendingConns
          ∧ (applyResolved s h).activeConns = s.activeConns)
        ∧ (∀ a rest, h.addresses.filter (fun a =>
            (indexConnectionByAddr s.pendingConns a).isNone &&
            (indexConnectionByAddr s.activeConns a).isNone) = a :: rest →
          (applyResolved s h).pendingConns = s.pendingConns ++
            [{ makeConnection a h.url with id := s.connectionIdCtr }]
          ∧ (applyResolved s h).activeConns = s.activeConns)) := by
  constructor
  · intro urls s h
    exact (master_invariant urls s h).1
  · intro s h hmem
    constructor
    · intro hfil
      unfold applyResolved
      rw [if_pos hmem, hfil]
      exact ⟨rfl, rfl⟩
    · intro a rest hfil
      unfold applyResolved
      rw [if_pos hmem, hfil]
      exact ⟨rfl, rfl⟩

/-- A state with one lookup in flight, for the C3 witness. -/
def c3wState : OState :=
  { pendingResolutions := ⟨[]⟩, pendingConns := [], activeConns := [],
    inflightLookups := [wUrl], inflightCrawls := [],
    repeatedDailFails := 0, connectionIdCtr := 0 }

/-- Witness for C3: the invariant at the initial state, and the acceptance
of a fresh endpoint in a concrete state. -/
theorem endpoint_uniqueness_witness :
    (((initState [wUrl]).pendingConns ++ (initState [wUrl]).activeConns).map
      (fun c => c.host.ip)).Nodup
    ∧ (applyResolved c3wState ⟨wUrl, [⟨.v4 7, 80⟩]⟩).pendingConns
        = c3wState.pendingConns ++ [{ makeConnection ⟨.v4 7, 80⟩ wUrl with id := 0 }] := by
  constructor
  · exact endpoint_uniqueness.1 [wUrl] _ Reachable.init
  · exact ((endpoint_uniqueness.2 c3wState ⟨wUrl, [⟨.v4 7, 80⟩]⟩
      (by decide)).2 ⟨.v4 7, 80⟩ [] (by decide)).1

/-- Two URLs on one multi-connection host, used by the counterexamples. -/
def hUrl1 : Url := ⟨"http", "h.example", "", "/x.html", ""⟩

def hUrl2 : Url := ⟨"http", "h.example", "", "/y.html", ""⟩

/-- An event trace in which the host key `h.example:80` is enqueued for
resolution twice (once per completed crawl) and the two lookups resolve to
different addresses, so two pending connections with the same host key are
created. -/
def c3cexEvents : List Event :=
  [.lookupDispatch,
   .resolvedArrive ⟨wUrl, [⟨.v4 100, 80⟩]⟩,
   .crawlDispatch 10000 0,
   .replyArrive ⟨0, wUrl, none, 10000, 10100, [hUrl1], 0⟩,
   .crawlDispatch 20000 0,
   .replyArrive ⟨0, wUrl, none, 20000, 20100, [hUrl2], 0⟩,
   .lookupDispatch,
   .resolvedArrive ⟨hUrl1, [⟨.v4 101, 80⟩]⟩,
   .lookupDispatch,
   .resolvedArrive ⟨hUrl2, [⟨.v4 102, 80⟩]⟩]

def c3cexState : OState := c3cexEvents.foldl applyEvent (initState [wUrl])

/-- Counterexample to C3 as stated: a reachable state in which two pending
connections share the host key `h.example:80` (their endpoints differ, so
endpoint-based acceptance admits both). -/
theorem hostkey_counterexample :
    Reachable [wUrl] c3cexState
    ∧ c3cexState.pendingConns.map (fun c => c.host.hostPort)
        = ["h.example:80", "h.example:80"]
    ∧ ¬ (∀ c1 ∈ c3cexState.pendingConns ++ c3cexState.activeConns,
          ∀ c2 ∈ c3cexState.pendingConns ++ c3cexState.activeConns,
          c1 = c2 ∨ c1.host.hostPort ≠ c2.host.hostPort) := by
  refine ⟨reachable_foldl [wUrl] c3cexEvents (initState [wUrl]) Reachable.init,
    ?_, ?_⟩ <;> decide

/-! ## Claim C8: disjointness of the per-connection URL sets -/

/-- Claim C8 (amended): in every reachable orchestrator state, every
connection's uncrawled set is disjoint from its crawling set and from its
crawled set, and every dispatch and completion step preserves this; the
crawling and crawled sets are not always disjoint (a keep-alive refresh
re-crawls an already crawled URL). -/
theorem uncrawled_disjointness :
    ∀ (urls : List Url) (s : OState), Reachable urls s →
      ∀ c ∈ s.pendingConns ++ s.activeConns,
        (∀ x ∈ c.uncrawledUrls, x ∉ c.crawlingUrls)
        ∧ (∀ x ∈ c.uncrawledUrls, x ∉ c.crawledUrls) := by
  intro urls s h c hc
  have hinv := (master_invariant urls s h).2.1 c hc
  exact ⟨hinv.2.2.2.1, hinv.2.2.2.2⟩

def c8wEvents : List Event :=
  [.lookupDispatch, .resolvedArrive ⟨wUrl, [⟨.v4 100, 80⟩]⟩, .crawlDispatch 10000 0]

def c8wState : OState := c8wEvents.foldl applyEvent (initState [wUrl])

/-- The single active connection of `c8wState`. -/
def c8wConn : Conn :=
  { id := 0, host := ⟨⟨.v4 100, 80⟩, "example.com:80"⟩, url := wUrl,
    uncrawledUrls := [], crawlingUrls := [⟨"/index.html", ""⟩], crawledUrls := [],
    lastRequest := 10000, lastReply := 0 }

/-- Witness for C8 at a concrete reachable state with one connection. -/
theorem uncrawled_disjointness_witness :
    (∀ x ∈ c8wConn.uncrawledUrls, x ∉ c8wConn.crawlingUrls)
    ∧ (∀ x ∈ c8wConn.uncrawledUrls, x ∉ c8wConn.crawledUrls) :=
  uncrawled_disjointness [wUrl] c8wState
    (reachable_foldl [wUrl] c8wEvents (initState [wUrl]) Reachable.init)
    c8wConn (by decide)

def c8cexEvents : List Event :=
  [.lookupDispatch,
   .resolvedArrive ⟨wUrl, [⟨.v4 100, 80⟩]⟩,
   .crawlDispatch 10000 0,
   .replyArrive ⟨0, wUrl, none, 10000, 10100, [hUrl1], 0⟩,
   .crawlDispatch 20000 0]

def c8cexState : OState := c8cexEvents.foldl applyEvent (initState [wUrl])

/-- Counterexample to C8 as stated: after the seed URL is crawled, a
keep-alive refresh dispatches the same relative URL again, so it sits in
the crawling set while it remains in the crawled set — the two sets are
not disjoint in this reachable state. -/
theorem disjoint_counterexample :
    Reachable [wUrl] c8cexState
    ∧ c8cexState.activeConns.map (fun c => c.crawlingUrls)
        = [[⟨"/index.html", ""⟩]]
    ∧ c8cexState.activeConns.map (fun c => c.crawledUrls)
        = [[⟨"/index.html", ""⟩]]
    ∧ ¬ (∀ c ∈ c8cexState.pendingConns ++ c8cexState.activeConns,
          ∀ x ∈ c.crawlingUrls, x ∉ c.crawledUrls) := by
  refine ⟨reachable_foldl [wUrl] c8cexEvents (initState [wUrl]) Reachable.init,
    ?_, ?_, ?_⟩ <;> decide

end Natck
